import Mathlib

/-!
Verification of the core of `mpi_x11blit` (src/mpi_x11blit.c) against its
natural-language specification.

The C program partitions a raw RGB byte buffer across `g_size` worker
processes, each of which reads its chunk, decodes byte triplets into
`struct rgb_point` records, applies a filter chain, and streams the records
to a renderer process that draws each received pixel at the coordinates the
record itself carries.

This file shallowly embeds the arithmetic and data-flow of that code:

* the chunk/partition formula of `read_data` (lines 274-277);
* the input-size check of `read_data` (lines 265-272);
* the offset-to-coordinate decoding (lines 300-303);
* the per-pixel filters `filter_grayscale`, `filter_invert`,
  `filter_lighten`, `filter_darken` (lines 220-247) and the filter-string
  dispatch loop (lines 311-326);
* the renderer's receive loop in `perform_rendering` (lines 201-209),
  modelled as a fold over the arrival-ordered list of records;
* the `argc` check at the top of `main` (lines 361-364).

Machine integers are modelled as `Nat`/`Int` with explicit `% 2^w` where a
C narrowing store occurs.  `MPI_Offset` quantities (signed 64-bit in C) are
modelled as `Int` where the code's `- 1` can go below zero; the claims
quantify over sizes far below 2^63, where no wrap-around can occur.
-/

/-- Constant `BITMAP_WIDTH` from the C source (line 35). -/
def BITMAP_WIDTH : ℕ := 400

/-- Constant `BITMAP_HEIGHT` from the C source (line 36). -/
def BITMAP_HEIGHT : ℕ := 400

/-- Constant `BITMAP_BPP` (bytes per pixel, the triplet stride) from the C
source (line 37). -/
def BITMAP_BPP : ℕ := 3

/-- Constant `BITMAP_STRIDE = BITMAP_BPP * BITMAP_WIDTH` from the C source
(line 38). -/
def BITMAP_STRIDE : ℕ := BITMAP_BPP * BITMAP_WIDTH

/-- Constant `EXIT_SUCCESS` of the C standard library. -/
def EXIT_SUCCESS : ℕ := 0

/-- Constant `EXIT_FAILURE` of the C standard library. -/
def EXIT_FAILURE : ℕ := 1

/-! ## Partitioner (`read_data`, lines 274-277)

The C code, executed by the worker of rank `rank` with `g_size` workers on
an input of `input_len` bytes, computes

    MPI_Offset chunk_len = input_len / g_size,
               chunk_start = chunk_len * g_rank,
               chunk_end = min(input_len, chunk_start + chunk_len) - 1;
    chunk_len = chunk_end - chunk_start + 1;

All quantities are nonnegative here, so C's truncating division agrees with
`Nat` division.  `chunk_end` and the final length are modelled over `Int`
because the `- 1` can reach `-1` when `input_len = 0`. -/

/-- First assignment `chunk_len = input_len / g_size` (integer division). -/
def chunk_len (input_len g_size : ℕ) : ℕ := input_len / g_size

/-- Assignment `chunk_start = chunk_len * g_rank`. -/
def chunk_start (input_len g_size g_rank : ℕ) : ℕ :=
  chunk_len input_len g_size * g_rank

/-- Assignment `chunk_end = min(input_len, chunk_start + chunk_len) - 1`. -/
def chunk_end (input_len g_size g_rank : ℕ) : ℤ :=
  min (input_len : ℤ)
    ((chunk_start input_len g_size g_rank : ℤ) + (chunk_len input_len g_size : ℤ)) - 1

/-- Reassignment `chunk_len = chunk_end - chunk_start + 1`: the number of
bytes the worker of rank `g_rank` actually reads. -/
def part_length (input_len g_size g_rank : ℕ) : ℤ :=
  chunk_end input_len g_size g_rank - (chunk_start input_len g_size g_rank : ℤ) + 1

/-! ## Input-size check (`read_data`, lines 265-272)

The C code aborts with `EXIT_FAILURE` when `input_len % BITMAP_STRIDE` is
nonzero:

    if (input_len % BITMAP_STRIDE) { errf(...); MPI_Abort(...); _exit(EXIT_FAILURE); }
-/

/-- Truth of the C condition `input_len % BITMAP_STRIDE`: `true` exactly when
`read_data` treats the input length as a fatal configuration error and
aborts before partitioning. -/
def size_check_rejects (input_len : ℕ) : Bool :=
  input_len % BITMAP_STRIDE != 0

/-! ## Offset-to-coordinate decoding (`read_data`, lines 300-303)

For the global triplet index `i = chunk_start / BITMAP_BPP + off` the worker
sets

    point.x = (i) % BITMAP_WIDTH;
    point.y = (i) / BITMAP_WIDTH;
-/

/-- Decoding of a linear triplet offset into destination coordinates,
exactly as computed into `point.x` / `point.y`. -/
def decode (i : ℕ) : ℕ × ℕ := (i % BITMAP_WIDTH, i / BITMAP_WIDTH)

/-! ## The pixel record and the filters (lines 79-82 and 220-247)

`struct rgb_point { uint16_t x, y; uint8_t r, g, b; }`.  Fields are
modelled as `Nat`; every store into a `uint8_t` field is modelled with an
explicit `% 256` (the C narrowing conversion).  The claims only concern
records whose channels are in `[0, 255]`, i.e. the values a `uint8_t` field
can actually hold. -/

/-- Lean model of `struct rgb_point`. -/
structure rgb_point where
  x : ℕ
  y : ℕ
  r : ℕ
  g : ℕ
  b : ℕ
deriving DecidableEq, Repr

/-- Filter `filter_grayscale` (lines 220-224): the channels are promoted to
`int`, summed, divided by 3 and the result is stored back through a
`(uint8_t)` cast into all three channels. -/
def filter_grayscale (p : rgb_point) : rgb_point :=
  let avg : ℕ := ((p.r + p.g + p.b) / 3) % 256
  { p with r := avg, g := avg, b := avg }

/-- Filter `filter_invert` (lines 226-231): each channel `c` becomes
`0xff - c`, stored back into a `uint8_t` field.  For `c ≤ 255` the `int`
subtraction `0xff - c` is nonnegative, so `Nat` subtraction models it
exactly. -/
def filter_invert (p : rgb_point) : rgb_point :=
  { p with r := (0xff - p.r) % 256, g := (0xff - p.g) % 256, b := (0xff - p.b) % 256 }

/-- Channel transform of `filter_lighten` (lines 233-239): the C code
computes `c + (0xff - c) * 0.25f` in `float` and stores the result into a
`uint8_t` field.  For `c ≤ 255` every intermediate `float` value here is an
exact multiple of 1/4 below 2^9, hence exactly representable, so the
computation is modelled exactly over `ℚ`; the float-to-unsigned store
truncates toward zero, which on these nonnegative values is `Int.floor`. -/
def lighten_channel (c : ℕ) : ℕ :=
  (⌊(c : ℚ) + (255 - (c : ℚ)) * (1 / 4)⌋).toNat % 256

/-- Filter `filter_lighten` applied to all three channels. -/
def filter_lighten (p : rgb_point) : rgb_point :=
  { p with r := lighten_channel p.r, g := lighten_channel p.g, b := lighten_channel p.b }

/-- Channel transform of `filter_darken` (lines 241-247): the C code
computes `c * (1.0 - 0.25)` in floating point and stores the result into a
`uint8_t` field.  `1.0 - 0.25 = 0.75` and `c * 0.75 = 3c/4` are exact in
`float`/`double` for `c ≤ 255`, so the computation is modelled exactly over
`ℚ`, with `Int.floor` for the truncating store. -/
def darken_channel (c : ℕ) : ℕ :=
  (⌊(c : ℚ) * (1 - 1 / 4)⌋).toNat % 256

/-- Filter `filter_darken` applied to all three channels. -/
def filter_darken (p : rgb_point) : rgb_point :=
  { p with r := darken_channel p.r, g := darken_channel p.g, b := darken_channel p.b }

/-! ## Filter-string dispatch (`read_data`, lines 311-326)

    for (size_t i = 0; i < num_filters; i++) {
        switch (filters[i]) {
        case 'g': filter_grayscale(&point); break;
        case 'i': filter_invert(&point); break;
        case 'l': filter_lighten(&point); break;
        case 'd': filter_darken(&point); break;
        }
    }

A character that matches no `case` falls through the `switch` and leaves
the point unchanged. -/

/-- One iteration of the filter loop: the `switch` on a single character. -/
def apply_filter_char (p : rgb_point) (c : Char) : rgb_point :=
  if c = 'g' then filter_grayscale p
  else if c = 'i' then filter_invert p
  else if c = 'l' then filter_lighten p
  else if c = 'd' then filter_darken p
  else p

/-- The whole filter loop over the filter string (as a character list),
left to right. -/
def apply_filters (filters : List Char) (p : rgb_point) : rgb_point :=
  filters.foldl apply_filter_char p

/-- Characters having a `case` label in the `switch` of lines 311-326. -/
def known_filter_char (c : Char) : Bool :=
  c = 'g' || c = 'i' || c = 'l' || c = 'd'

/-! ## The collector (`perform_rendering`, lines 201-209)

    for (size_t i = 0; i < BITMAP_WIDTH * BITMAP_HEIGHT; i++) {
        MPI_Recv(&point, 1, g_point_type, MPI_ANY_SOURCE, MPI_ANY_TAG, ...);
        XSetForeground(display, ctx, RGB(point.r, point.g, point.b));
        XDrawPoint(display, window, ctx, point.x, point.y);
    }

The render target is modelled as a function from a coordinate to the color
last drawn there; each received record overwrites the cell named by its own
`(x, y)` fields.  The arrival order of the records on the channel is
modelled as a list, and the loop consumes exactly
`BITMAP_WIDTH * BITMAP_HEIGHT` records from its front. -/

/-- Destination coordinate carried by a record. -/
def coord (p : rgb_point) : ℕ × ℕ := (p.x, p.y)

/-- Color carried by a record. -/
def color (p : rgb_point) : ℕ × ℕ × ℕ := (p.r, p.g, p.b)

/-- State of the render target: the color currently shown at each cell. -/
def RenderTarget : Type := ℕ × ℕ → ℕ × ℕ × ℕ

/-- Effect of one loop iteration: `XDrawPoint` at `(point.x, point.y)` with
color `(point.r, point.g, point.b)`. -/
def blit (t : RenderTarget) (p : rgb_point) : RenderTarget :=
  fun c => if c = (p.x, p.y) then (p.r, p.g, p.b) else t c

/-- Effect of receiving and drawing a list of records in arrival order. -/
def collect (records : List rgb_point) (t : RenderTarget) : RenderTarget :=
  records.foldl blit t

/-- The receive loop of `perform_rendering`: exactly
`BITMAP_WIDTH * BITMAP_HEIGHT` records are taken from the arrival stream
and drawn. -/
def collector_run (stream : List rgb_point) (t : RenderTarget) : RenderTarget :=
  collect (stream.take (BITMAP_WIDTH * BITMAP_HEIGHT)) t

/-- All destination coordinates of the image, enumerated by the decoding of
the triplet indices `0 .. BITMAP_WIDTH * BITMAP_HEIGHT - 1`. -/
def all_coords : List (ℕ × ℕ) :=
  (List.range (BITMAP_WIDTH * BITMAP_HEIGHT)).map decode

/-! ## Entry check of `main` (lines 361-364)

    if (argc < 3) {
        printf("usage: " PROGNAME " NUM_WORKERS INPUT_FILE [FILTERS]\n\n");
        return EXIT_SUCCESS;
    }
-/

/-- Usage string printed by `main` when invoked with too few arguments. -/
def usage_text : String :=
  "usage: mpi_x11blit NUM_WORKERS INPUT_FILE [FILTERS]\n\n"

/-- Outcome of the argument-count check at the top of `main`: either an
early return with the printed text and the returned exit code, or
continuation into MPI initialization. -/
def main_argc_check (argc : ℕ) : Option (String × ℕ) :=
  if argc < 3 then some (usage_text, EXIT_SUCCESS) else none

/-! ## Theorems -/

/-- C5: for every `x < BITMAP_WIDTH` and `y < BITMAP_HEIGHT`, decoding the
linear triplet offset `y * BITMAP_WIDTH + x` with
`x = offset mod BITMAP_WIDTH`, `y = offset div BITMAP_WIDTH` (lines
300-303) yields exactly `(x, y)`: the offset-to-coordinate mapping
round-trips. -/
theorem decode_roundtrip (x y : ℕ) (hx : x < BITMAP_WIDTH) (hy : y < BITMAP_HEIGHT) :
    decode (y * BITMAP_WIDTH + x) = (x, y) := by
  simp only [decode, BITMAP_WIDTH, BITMAP_HEIGHT, Prod.mk.injEq] at *
  omega

/-- Witness for `decode_roundtrip` at `x = 3`, `y = 5`. -/
theorem decode_roundtrip_witness :
    (3 : ℕ) < BITMAP_WIDTH ∧ (5 : ℕ) < BITMAP_HEIGHT ∧
      decode (5 * BITMAP_WIDTH + 3) = (3, 5) :=
  ⟨by decide, by decide, decode_roundtrip 3 5 (by decide) (by decide)⟩

/-- C10: when `main` is invoked with fewer than 3 command-line arguments it
prints the usage string and returns `EXIT_SUCCESS` (exit code 0), not a
non-zero failure status (lines 361-364). -/
theorem main_usage_exit (argc : ℕ) (h : argc < 3) :
    main_argc_check argc = some (usage_text, EXIT_SUCCESS) ∧
      EXIT_SUCCESS = 0 ∧ EXIT_SUCCESS ≠ EXIT_FAILURE := by
  refine ⟨?_, rfl, by decide⟩
  simp [main_argc_check, h]

/-- Witness for `main_usage_exit` at `argc = 2` (program name plus one
argument). -/
theorem main_usage_exit_witness :
    main_argc_check 2 = some (usage_text, EXIT_SUCCESS) ∧
      EXIT_SUCCESS = 0 ∧ EXIT_SUCCESS ≠ EXIT_FAILURE :=
  main_usage_exit 2 (by decide)

/-- C3, counterexample: the claim says every input length other than
`BITMAP_WIDTH * BITMAP_HEIGHT * BITMAP_BPP = 480000` is rejected by the
size check, but the check of lines 265-272 only tests
`input_len % BITMAP_STRIDE`: the length 2400 differs from 480000 yet
passes the check. -/
theorem size_check_cex :
    size_check_rejects 2400 = false ∧
      2400 ≠ BITMAP_WIDTH * BITMAP_HEIGHT * BITMAP_BPP := by
  decide

/-- C3, amended: before any partitioning, `read_data` checks the input
size and rejects it as a fatal configuration error exactly when it is not
a multiple of `BITMAP_STRIDE = BITMAP_BPP * BITMAP_WIDTH = 1200`; a length
that is a multiple of 1200 passes the check even when it differs from
480000. -/
theorem size_check_rejects_iff (input_len : ℕ) :
    size_check_rejects input_len = true ↔ ¬ BITMAP_STRIDE ∣ input_len := by
  simp [size_check_rejects, Nat.dvd_iff_mod_eq_zero]

/-- C6: for channels `r, g, b ≤ 255`, `filter_grayscale` (lines 220-224)
sets all three channels to the truncating integer average
`(r + g + b) / 3`, the `(uint8_t)` cast having no effect because the
average cannot exceed 255. -/
theorem grayscale_correct (p : rgb_point)
    (hr : p.r ≤ 255) (hg : p.g ≤ 255) (hb : p.b ≤ 255) :
    filter_grayscale p =
      { p with r := (p.r + p.g + p.b) / 3, g := (p.r + p.g + p.b) / 3,
               b := (p.r + p.g + p.b) / 3 } := by
  have h : (p.r + p.g + p.b) / 3 % 256 = (p.r + p.g + p.b) / 3 := by omega
  simp [filter_grayscale, h]

/-- Witness for `grayscale_correct` at the record `(x=1, y=2, r=10, g=20,
b=30)`, whose integer average is 20. -/
theorem grayscale_correct_witness :
    (10 : ℕ) ≤ 255 ∧
      filter_grayscale ⟨1, 2, 10, 20, 30⟩ =
        { (⟨1, 2, 10, 20, 30⟩ : rgb_point) with
          r := (10 + 20 + 30) / 3
          g := (10 + 20 + 30) / 3
          b := (10 + 20 + 30) / 3 } :=
  ⟨by decide,
    grayscale_correct ⟨1, 2, 10, 20, 30⟩ (by decide) (by decide) (by decide)⟩

/-- Helper: the exact rational computation of `filter_lighten` on a channel
`c ≤ 255` equals the integer form `c + (255 - c) / 4` (truncating
division), and the `uint8_t` store does not wrap. -/
theorem lighten_channel_closed (c : ℕ) :
    lighten_channel c = (3 * c + 255) / 4 % 256 := by
  have hq : (c : ℚ) + (255 - (c : ℚ)) * (1 / 4) = ((3 * c + 255 : ℕ) : ℚ) / ((4 : ℕ) : ℚ) := by
    push_cast
    ring
  have hfloor : (⌊((3 * c + 255 : ℕ) : ℚ) / ((4 : ℕ) : ℚ)⌋).toNat = (3 * c + 255) / 4 := by
    rw [Int.floor_toNat, Nat.floor_div_eq_div]
  rw [lighten_channel, hq, hfloor]

/-- Helper: for `c ≤ 255` the `uint8_t` store does not wrap and the
lighten transform is the integer form `c + (255 - c) / 4`. -/
theorem lighten_channel_eq (c : ℕ) (hc : c ≤ 255) :
    lighten_channel c = c + (255 - c) / 4 := by
  rw [lighten_channel_closed]
  have hlt : (3 * c + 255) / 4 < 256 := by omega
  rw [Nat.mod_eq_of_lt hlt]
  have he : 3 * c + 255 = (255 - c) + 4 * c := by omega
  rw [he, Nat.add_mul_div_left _ _ (by norm_num : 0 < 4)]
  omega

/-- Helper: the exact rational computation of `filter_darken` on a channel
`c ≤ 255` equals the integer form `c * 3 / 4` (truncating division), and
the `uint8_t` store does not wrap. -/
theorem darken_channel_closed (c : ℕ) :
    darken_channel c = c * 3 / 4 % 256 := by
  have hq : (c : ℚ) * (1 - 1 / 4) = ((c * 3 : ℕ) : ℚ) / ((4 : ℕ) : ℚ) := by
    push_cast
    ring
  have hfloor : (⌊((c * 3 : ℕ) : ℚ) / ((4 : ℕ) : ℚ)⌋).toNat = c * 3 / 4 := by
    rw [Int.floor_toNat, Nat.floor_div_eq_div]
  rw [darken_channel, hq, hfloor]

/-- Helper: for `c ≤ 255` the `uint8_t` store does not wrap and the
darken transform is the integer form `c * 3 / 4`. -/
theorem darken_channel_eq (c : ℕ) (hc : c ≤ 255) :
    darken_channel c = c * 3 / 4 := by
  rw [darken_channel_closed]
  omega

/-- C7: for channels in `[0, 255]`, `filter_lighten` (lines 233-239) sets
each channel independently to `c + (255 - c) * 0.25` truncated to an
integer, and `filter_darken` (lines 241-247) sets each channel
independently to `c * 0.75` truncated; written with truncating integer
division these are `c + (255 - c) / 4` and `c * 3 / 4`, and neither result
wraps in the `uint8_t` store. -/
theorem lighten_darken_correct (p : rgb_point)
    (hr : p.r ≤ 255) (hg : p.g ≤ 255) (hb : p.b ≤ 255) :
    filter_lighten p =
      { p with
        r := p.r + (255 - p.r) / 4
        g := p.g + (255 - p.g) / 4
        b := p.b + (255 - p.b) / 4 } ∧
    filter_darken p =
      { p with
        r := p.r * 3 / 4
        g := p.g * 3 / 4
        b := p.b * 3 / 4 } := by
  constructor
  · simp [filter_lighten, lighten_channel_eq _ hr, lighten_channel_eq _ hg,
      lighten_channel_eq _ hb]
  · simp [filter_darken, darken_channel_eq _ hr, darken_channel_eq _ hg,
      darken_channel_eq _ hb]

/-- Witness for `lighten_darken_correct` at the record `(x=0, y=0, r=0,
g=100, b=255)`: lighten gives `(63, 138, 255)` and darken gives
`(0, 75, 191)`. -/
theorem lighten_darken_correct_witness :
    (0 : ℕ) ≤ 255 ∧
      filter_lighten ⟨0, 0, 0, 100, 255⟩ =
        { (⟨0, 0, 0, 100, 255⟩ : rgb_point) with
          r := 0 + (255 - 0) / 4
          g := 100 + (255 - 100) / 4
          b := 255 + (255 - 255) / 4 } ∧
      filter_darken ⟨0, 0, 0, 100, 255⟩ =
        { (⟨0, 0, 0, 100, 255⟩ : rgb_point) with
          r := 0 * 3 / 4
          g := 100 * 3 / 4
          b := 255 * 3 / 4 } :=
  ⟨by decide,
    lighten_darken_correct ⟨0, 0, 0, 100, 255⟩ (by decide) (by decide) (by decide)⟩

/-- C8: for channels in `[0, 255]`, applying the filter chain `"ii"`
(`filter_invert` twice, lines 226-231) restores the original `r`, `g`, `b`
values: invert is an involution on the values a `uint8_t` channel can
hold. -/
theorem invert_involution (p : rgb_point)
    (hr : p.r ≤ 255) (hg : p.g ≤ 255) (hb : p.b ≤ 255) :
    apply_filters "ii".toList p = p := by
  have hii : "ii".toList = ['i', 'i'] := rfl
  cases p with
  | mk x y r g b =>
    rw [hii]
    show apply_filter_char (apply_filter_char ⟨x, y, r, g, b⟩ 'i') 'i' = _
    rw [apply_filter_char, if_neg (by decide), if_pos rfl]
    rw [apply_filter_char, if_neg (by decide), if_pos rfl]
    have hr' : r ≤ 255 := hr
    have hg' : g ≤ 255 := hg
    have hb' : b ≤ 255 := hb
    simp [filter_invert, rgb_point.mk.injEq]
    omega

/-- Witness for `invert_involution` at the record `(x=7, y=9, r=10, g=200,
b=0)`. -/
theorem invert_involution_witness :
    (10 : ℕ) ≤ 255 ∧ apply_filters "ii".toList ⟨7, 9, 10, 200, 0⟩ = ⟨7, 9, 10, 200, 0⟩ :=
  ⟨by decide, invert_involution ⟨7, 9, 10, 200, 0⟩ (by decide) (by decide) (by decide)⟩

/-- Helper: a character with no `case` label in the `switch` of lines
311-326 leaves the point unchanged. -/
theorem apply_filter_char_unknown (p : rgb_point) (c : Char)
    (h : known_filter_char c = false) : apply_filter_char p c = p := by
  simp only [known_filter_char, Bool.or_eq_false_iff, decide_eq_false_iff_not] at h
  obtain ⟨⟨⟨h1, h2⟩, h3⟩, h4⟩ := h
  simp [apply_filter_char, h1, h2, h3, h4]

/-- C9: for every filter string and every record, characters other than
`'g'`, `'i'`, `'l'`, `'d'` are silently ignored by the dispatch loop of
lines 311-326: applying the chain equals applying the chain with all
unrecognized characters removed, in the same left-to-right order. -/
theorem unknown_filters_ignored (filters : List Char) (p : rgb_point) :
    apply_filters filters p = apply_filters (filters.filter known_filter_char) p := by
  induction filters generalizing p with
  | nil => rfl
  | cons c cs ih =>
    by_cases hc : known_filter_char c
    · rw [List.filter_cons_of_pos hc]
      show apply_filters cs (apply_filter_char p c) =
        apply_filters (cs.filter known_filter_char) (apply_filter_char p c)
      exact ih _
    · rw [List.filter_cons_of_neg (by simpa using hc)]
      show apply_filters cs (apply_filter_char p c) = _
      rw [apply_filter_char_unknown p c (by simpa using hc)]
      exact ih _

/-- Helper: for every worker index `i < n` (the last one included), the
branch `min(input_len, chunk_start + chunk_len)` of line 276 selects
`chunk_start + chunk_len`, because `chunk_len * n = (L / n) * n ≤ L`; hence
the partition length computed on line 277 is exactly `L / n`. -/
theorem part_length_eq (L n i : ℕ) (hn : 1 ≤ n) (hi : i < n) :
    part_length L n i = ((L / n : ℕ) : ℤ) := by
  have h3 : L / n * n ≤ L := Nat.div_mul_le_self L n
  have h2 : L / n * (i + 1) ≤ L / n * n := Nat.mul_le_mul_left _ (by omega)
  have h4 : chunk_start L n i + chunk_len L n = L / n * (i + 1) := by
    simp [chunk_start, chunk_len]
    ring
  have h1 : ((chunk_start L n i : ℤ) + (chunk_len L n : ℤ)) ≤ (L : ℤ) := by
    exact_mod_cast Nat.le_trans (Nat.le_of_eq h4) (Nat.le_trans h2 h3)
  rw [part_length, chunk_end, min_eq_right h1]
  have h5 : (chunk_len L n : ℤ) = ((L / n : ℕ) : ℤ) := by rw [chunk_len]
  rw [← h5]
  ring

/-- C1, counterexample: with `total_length = 10` and `worker_count = 3` the
claimed properties fail: the three partition lengths (3, 3, 3) sum to 9,
not 10, and the last worker's length is 3, not
`floor(10/3) + (10 mod 3) = 4` — the remainder byte is dropped, not
absorbed by the last worker. -/
theorem partition_sum_cex :
    part_length 10 3 0 + part_length 10 3 1 + part_length 10 3 2 ≠ (10 : ℤ) ∧
      part_length 10 3 2 ≠ (10 : ℤ) / 3 + (10 : ℤ) % 3 := by
  decide

/-- C1, amended: for every `total_length = L` and `worker_count = n ≥ 1`,
the partitions computed by lines 274-277 are contiguous and
non-overlapping, and every worker — including the last — gets exactly
`floor(L/n)` bytes: the `min()` cap of line 276 never takes effect for
ranks `0 .. n-1`.  Consequently the lengths sum to `L - (L mod n)`, which
equals `L` exactly when `n` divides `L`; when the division is inexact the
remainder `L mod n` bytes are assigned to no worker. -/
theorem partitions_floor_and_sum (L n : ℕ) (hn : 1 ≤ n) :
    (∀ i, i < n → part_length L n i = ((L / n : ℕ) : ℤ)) ∧
    (∀ i, i + 1 < n →
      (chunk_start L n (i + 1) : ℤ) = (chunk_start L n i : ℤ) + part_length L n i) ∧
    (∀ i j, i < j → j < n →
      (chunk_start L n i : ℤ) + part_length L n i ≤ (chunk_start L n j : ℤ)) ∧
    (∑ i ∈ Finset.range n, part_length L n i) = (L : ℤ) - ((L % n : ℕ) : ℤ) := by
  refine ⟨fun i hi => part_length_eq L n i hn hi, ?_, ?_, ?_⟩
  · intro i hi1
    rw [part_length_eq L n i hn (by omega)]
    simp only [chunk_start, chunk_len]
    push_cast
    ring
  · intro i j hij hj
    rw [part_length_eq L n i hn (by omega)]
    have hmul : L / n * (i + 1) ≤ L / n * j := Nat.mul_le_mul_left _ (by omega)
    have hz : ((L / n * (i + 1) : ℕ) : ℤ) ≤ ((L / n * j : ℕ) : ℤ) := by exact_mod_cast hmul
    simp only [chunk_start, chunk_len] at *
    push_cast at hz ⊢
    linarith
  · have hsum : ∀ i ∈ Finset.range n, part_length L n i = ((L / n : ℕ) : ℤ) :=
      fun i hi => part_length_eq L n i hn (Finset.mem_range.mp hi)
    rw [Finset.sum_congr rfl hsum, Finset.sum_const, Finset.card_range, nsmul_eq_mul]
    have hdm : n * (L / n) + L % n = L := Nat.div_add_mod L n
    have hz : (n : ℤ) * ((L / n : ℕ) : ℤ) + ((L % n : ℕ) : ℤ) = (L : ℤ) := by
      exact_mod_cast hdm
    linarith

/-- Witness for `partitions_floor_and_sum` at `total_length = 10`,
`worker_count = 3`: the last worker's length is `floor(10/3) = 3` and the
lengths sum to `10 - (10 mod 3) = 9`. -/
theorem partitions_floor_and_sum_witness :
    part_length 10 3 2 = ((10 / 3 : ℕ) : ℤ) ∧
      (∑ i ∈ Finset.range 3, part_length 10 3 i) = (10 : ℤ) - ((10 % 3 : ℕ) : ℤ) :=
  ⟨(partitions_floor_and_sum 10 3 (by decide)).1 2 (by decide),
    (partitions_floor_and_sum 10 3 (by decide)).2.2.2⟩

/-- C2, counterexample: `total_length = 1200` is a multiple of
`BITMAP_WIDTH * BITMAP_BPP = 1200`, yet with `worker_count = 9` the
partition of worker 0 — not the final partition, since `0 < 9 - 1` — has
length `floor(1200/9) = 133`, which is not a multiple of 3; moreover
worker 1 then starts at byte offset 133, in the middle of a triplet, so a
triplet does straddle a partition boundary. -/
theorem partitions_triplet_cex :
    BITMAP_STRIDE ∣ 1200 ∧ (0 : ℕ) < 9 - 1 ∧
      ¬ (3 : ℤ) ∣ part_length 1200 9 0 ∧ ¬ 3 ∣ chunk_start 1200 9 1 := by
  decide

/-- C2, amended: every worker's partition length equals `floor(L/n)`, the
final partition included, so the lengths are multiples of 3 precisely when
`3 ∣ floor(L/n)` — a condition the code never checks.  Under that
condition (for instance whenever `n` divides a `total_length` that is a
multiple of `BITMAP_WIDTH * BITMAP_BPP`), every partition start and length
is a multiple of the triplet stride, and hence no 3-byte triplet straddles
a partition boundary. -/
theorem partitions_triplet_aligned (L n : ℕ) (hL : BITMAP_STRIDE ∣ L) (hn : 1 ≤ n)
    (h3 : 3 ∣ L / n) :
    ∀ i, i < n → 3 ∣ chunk_start L n i ∧ (3 : ℤ) ∣ part_length L n i := by
  intro i hi
  constructor
  · rw [chunk_start, chunk_len]
    exact Dvd.dvd.mul_right h3 i
  · rw [part_length_eq L n i hn hi]
    exact_mod_cast h3

/-- Witness for `partitions_triplet_aligned` at `total_length = 1200`,
`worker_count = 2`, worker 1: `floor(1200/2) = 600` is a multiple of 3. -/
theorem partitions_triplet_aligned_witness :
    3 ∣ chunk_start 1200 2 1 ∧ (3 : ℤ) ∣ part_length 1200 2 1 :=
  partitions_triplet_aligned 1200 2 (by decide) (by decide) (by decide) 1 (by decide)

/-- Helper: a cell never named by any record in the list keeps its previous
contents through the receive loop. -/
theorem collect_eq_of_not_mem (rs : List rgb_point) (t : RenderTarget) (c : ℕ × ℕ)
    (h : c ∉ rs.map coord) : collect rs t c = t c := by
  induction rs generalizing t with
  | nil => rfl
  | cons q tl ih =>
    simp only [List.map_cons, List.mem_cons] at h
    push_neg at h
    have hstep : collect (q :: tl) t = collect tl (blit t q) := rfl
    rw [hstep, ih (blit t q) h.2, blit]
    simp only [coord] at h
    simp [h.1]

/-- Helper: when the records' destination coordinates are pairwise
distinct, the receive loop leaves each record's own color at each record's
own cell. -/
theorem collect_eq_color (rs : List rgb_point) (t : RenderTarget) (p : rgb_point)
    (hnd : (rs.map coord).Nodup) (hp : p ∈ rs) :
    collect rs t (coord p) = color p := by
  induction rs generalizing t with
  | nil => cases hp
  | cons q tl ih =>
    simp only [List.map_cons, List.nodup_cons] at hnd
    rcases List.mem_cons.mp hp with rfl | hmem
    · have hstep : collect (p :: tl) t = collect tl (blit t p) := rfl
      rw [hstep, collect_eq_of_not_mem tl (blit t p) (coord p) hnd.1]
      simp [blit, coord, color]
    · exact ih (blit t q) hnd.2 hmem

/-- Helper: the coordinate enumeration `all_coords` lists every cell
exactly once. -/
theorem all_coords_nodup : all_coords.Nodup := by
  refine List.Nodup.map ?_ (List.nodup_range _)
  intro i j hij
  simp only [decode, BITMAP_WIDTH, Prod.mk.injEq] at hij
  omega

/-- Helper: there are `BITMAP_WIDTH * BITMAP_HEIGHT` cells. -/
theorem all_coords_length : all_coords.length = BITMAP_WIDTH * BITMAP_HEIGHT := by
  simp [all_coords]

/-- C4: whenever the multiset of records arriving on the channel names each
destination cell exactly once (its coordinate list is a permutation of
`all_coords`), the receive loop of lines 201-209 consumes exactly
`BITMAP_WIDTH * BITMAP_HEIGHT` records, writes each record to the cell
given by the record's own `(x, y)` fields, and produces the identical
final image for every arrival order (any permutation `l2` of the stream
`l1`). -/
theorem collector_correct (l1 l2 : List rgb_point) (t : RenderTarget)
    (h1 : (l1.map coord).Perm all_coords) (h2 : l2.Perm l1) :
    l1.length = BITMAP_WIDTH * BITMAP_HEIGHT ∧
      (∀ p, p ∈ l1 → collector_run l1 t (coord p) = color p) ∧
      collector_run l1 t = collector_run l2 t := by
  have hnd1 : (l1.map coord).Nodup := h1.nodup_iff.mpr all_coords_nodup
  have hperm : (l2.map coord).Perm (l1.map coord) := h2.map coord
  have hnd2 : (l2.map coord).Nodup := (hperm.trans h1).nodup_iff.mpr all_coords_nodup
  have hlen1 : l1.length = BITMAP_WIDTH * BITMAP_HEIGHT := by
    have h := h1.length_eq
    rw [List.length_map] at h
    rw [h, all_coords_length]
  have hlen2 : l2.length = BITMAP_WIDTH * BITMAP_HEIGHT := h2.length_eq.trans hlen1
  have htake1 : l1.take (BITMAP_WIDTH * BITMAP_HEIGHT) = l1 :=
    List.take_of_length_le (le_of_eq hlen1)
  have htake2 : l2.take (BITMAP_WIDTH * BITMAP_HEIGHT) = l2 :=
    List.take_of_length_le (le_of_eq hlen2)
  refine ⟨hlen1, ?_, ?_⟩
  · intro p hp
    rw [collector_run, htake1]
    exact collect_eq_color l1 t p hnd1 hp
  · rw [collector_run, collector_run, htake1, htake2]
    funext c
    by_cases hc : c ∈ l1.map coord
    · obtain ⟨p, hp, rfl⟩ := List.mem_map.mp hc
      rw [collect_eq_color l1 t p hnd1 hp,
        collect_eq_color l2 t p hnd2 (h2.mem_iff.mpr hp)]
    · rw [collect_eq_of_not_mem l1 t c hc,
        collect_eq_of_not_mem l2 t c (fun hmem => hc (hperm.mem_iff.mp hmem))]

/-- Concrete arrival stream for the witness of `collector_correct`: one
record per cell, all carrying the color `(128, 64, 32)`. -/
def witness_stream : List rgb_point :=
  all_coords.map (fun c => ⟨c.1, c.2, 128, 64, 32⟩)

/-- Concrete initial render target (an all-black window). -/
def black_target : RenderTarget := fun _ => (0, 0, 0)

/-- Helper: the coordinates of `witness_stream` are `all_coords` itself. -/
theorem witness_stream_coords : witness_stream.map coord = all_coords := by
  rw [witness_stream, List.map_map]
  have hfun : (coord ∘ fun c : ℕ × ℕ => (⟨c.1, c.2, 128, 64, 32⟩ : rgb_point)) =
      fun c : ℕ × ℕ => c := by
    funext c
    cases c
    rfl
  rw [hfun, List.map_id']

/-- Witness for `collector_correct` on `witness_stream` received in its own
order. -/
theorem collector_correct_witness :
    witness_stream.length = BITMAP_WIDTH * BITMAP_HEIGHT ∧
      collector_run witness_stream black_target =
        collector_run witness_stream black_target := by
  have hp : (witness_stream.map coord).Perm all_coords := by
    rw [witness_stream_coords]
  have h := collector_correct witness_stream witness_stream black_target hp
    (List.Perm.refl witness_stream)
  exact ⟨h.1, h.2.2⟩
